import Mathlib

/-!
Shallow embedding of the anime-ranker Ranking & Scoring Engine:
the Elo rating store (`createEloState`, `expectedScore`, `recordOutcome`),
the pair sampler (`selectPair` with its weighted-choice primitive), the
distribution fitter (`fitNormal`, `erf`, `normalCdf`), the normality
estimator (`malScoreSummary`) and the blend weight (`computeEloWeight`).
JavaScript `Map`s are modelled as association lists keyed by item id,
`Set`s of canonical pair keys as lists of ordered pairs, and IEEE numbers
as real numbers (rationals where the program only ever compares exactly).
The mutable seeded random source is modelled as a stream of draw results
consumed in call order.
-/

namespace AnimeRanker

/-- Per-item rating record (`Rating` in types.ts). -/
structure Rating where
  value : ℝ
  games : ℕ
  wins : ℕ
  losses : ℕ
  ties : ℕ

/-- Elo session state (`EloState` in types.ts); the ratings `Map` is an
association list and `pairHistory` a list of canonical pair keys. -/
structure EloState where
  ratings : List (ℕ × Rating)
  comparisons : ℕ
  skips : ℕ
  pairHistory : List (ℕ × ℕ)
  kFactor : ℝ
  initialRating : ℝ

/-- Keys of an association list, in insertion order. -/
def keysOf (l : List (ℕ × α)) : List ℕ := l.map Prod.fst

/-- `Map.get`: the value at the first (and in a well-formed map, only)
entry with the given key. -/
def mapGet (l : List (ℕ × α)) (k : ℕ) : Option α :=
  match l with
  | [] => none
  | (k', v) :: t => if k' = k then some v else mapGet t k

/-- `Map.set`: replace the entry when the key is present, append otherwise. -/
def mapSet (l : List (ℕ × α)) (k : ℕ) (v : α) : List (ℕ × α) :=
  if k ∈ keysOf l then l.map (fun p => if p.1 = k then (k, v) else p)
  else l ++ [(k, v)]

/-- `Set.add` on canonical pair keys: append when absent. -/
def setAdd (l : List (ℕ × ℕ)) (k : ℕ × ℕ) : List (ℕ × ℕ) :=
  if k ∈ l then l else l ++ [k]

/-- Canonical unordered pair key, smaller id first (`pairKey` in elo.ts;
the `{a}-{b}` string encoding is injective on canonical pairs, so the
ordered pair itself is a faithful model of the key). -/
def pairKey (aId bId : ℕ) : ℕ × ℕ :=
  if aId < bId then (aId, bId) else (bId, aId)

/-- A fresh rating at the initial value. -/
def freshRating (initialRating : ℝ) : Rating :=
  { value := initialRating, games := 0, wins := 0, losses := 0, ties := 0 }

/-- Rating used where the code performs an unchecked `as Rating` cast;
never reached on well-formed inputs. -/
def defaultRating : Rating := freshRating 0

/-- `createEloState(animeIds, kFactor, initialRating = 1500)`. -/
def createEloState (animeIds : List ℕ) (kFactor : ℝ) (initialRating : ℝ) :
    EloState :=
  { ratings :=
      animeIds.foldl (fun m i => mapSet m i (freshRating initialRating)) []
  , comparisons := 0
  , skips := 0
  , pairHistory := []
  , kFactor := kFactor
  , initialRating := initialRating }

/-- `expectedScore(ratingA, ratingB) = 1 / (1 + 10 ** ((ratingB - ratingA) / 400))`. -/
noncomputable def expectedScore (ratingA ratingB : ℝ) : ℝ :=
  1 / (1 + (10 : ℝ) ^ ((ratingB - ratingA) / 400))

/-- Error conditions thrown or signalled by the rating store and pair
sampler (section 7 of the specification). -/
inductive EloError where
  | invalidPair
  | invalidOutcome
  | insufficientItems
deriving DecidableEq

/-- `recordOutcome(elo, aId, bId, outcomeForA)`: validate, apply the Elo
update to both items, bump counters, record the canonical pair key, return
a new state. Outcomes are numbers compared exactly against 0, 0.5 and 1,
modelled as rationals. -/
noncomputable def recordOutcome (elo : EloState) (aId bId : ℕ)
    (outcomeForA : ℚ) : Except EloError EloState :=
  if aId = bId then .error .invalidPair
  else if ¬ (outcomeForA = 0 ∨ outcomeForA = 1/2 ∨ outcomeForA = 1) then
    .error .invalidOutcome
  else
    let ra0 := (mapGet elo.ratings aId).getD defaultRating
    let rb0 := (mapGet elo.ratings bId).getD defaultRating
    let expectedA := expectedScore ra0.value rb0.value
    let expectedB := 1 - expectedA
    let k := elo.kFactor
    let raValue := ra0.value + k * ((outcomeForA : ℝ) - expectedA)
    let rbValue := rb0.value + k * ((1 - (outcomeForA : ℝ)) - expectedB)
    let ra1 : Rating :=
      if outcomeForA = 1 then
        { value := raValue, games := ra0.games + 1, wins := ra0.wins + 1
        , losses := ra0.losses, ties := ra0.ties }
      else if outcomeForA = 0 then
        { value := raValue, games := ra0.games + 1, wins := ra0.wins
        , losses := ra0.losses + 1, ties := ra0.ties }
      else
        { value := raValue, games := ra0.games + 1, wins := ra0.wins
        , losses := ra0.losses, ties := ra0.ties + 1 }
    let rb1 : Rating :=
      if outcomeForA = 1 then
        { value := rbValue, games := rb0.games + 1, wins := rb0.wins
        , losses := rb0.losses + 1, ties := rb0.ties }
      else if outcomeForA = 0 then
        { value := rbValue, games := rb0.games + 1, wins := rb0.wins + 1
        , losses := rb0.losses, ties := rb0.ties }
      else
        { value := rbValue, games := rb0.games + 1, wins := rb0.wins
        , losses := rb0.losses, ties := rb0.ties + 1 }
    .ok { elo with
          ratings := mapSet (mapSet elo.ratings aId ra1) bId rb1
        , pairHistory := setAdd elo.pairHistory (pairKey aId bId)
        , comparisons := elo.comparisons + 1 }

/-- One outcome-recording request: the two item ids and the outcome for `a`. -/
structure OutcomeCall where
  aId : ℕ
  bId : ℕ
  outcomeForA : ℚ

/-- A call is valid when the ids are distinct members of the session's
item-id set and the outcome is one of 0, 0.5, 1. -/
def ValidCall (ks : List ℕ) (c : OutcomeCall) : Prop :=
  c.aId ≠ c.bId ∧ (c.outcomeForA = 0 ∨ c.outcomeForA = 1/2 ∨ c.outcomeForA = 1)
    ∧ c.aId ∈ ks ∧ c.bId ∈ ks

instance (ks : List ℕ) (c : OutcomeCall) : Decidable (ValidCall ks c) := by
  unfold ValidCall; infer_instance

/-- Fold a list of outcome-recording calls over a state; a call that the
store rejects leaves the state unchanged (the exception propagates to the
caller, who holds the previous state). -/
noncomputable def applyCalls (s : EloState) (calls : List OutcomeCall) :
    EloState :=
  calls.foldl
    (fun st c =>
      match recordOutcome st c.aId c.bId c.outcomeForA with
      | .ok s2 => s2
      | .error _ => st) s

/-- Sum of the `games` counters over all rating entries. -/
def gamesSum (l : List (ℕ × Rating)) : ℕ :=
  (l.map (fun p => p.2.games)).sum

/-- Sum of the rating values over all rating entries. -/
def valueSum (l : List (ℕ × Rating)) : ℝ :=
  (l.map (fun p => p.2.value)).sum

/-! ### Distribution fitter (scoring.ts) -/

/-- Normal fit record (`NormalFit` in types.ts). -/
structure NormalFit where
  mu : ℝ
  sigma : ℝ
deriving Inhabited

/-- `fitNormal(values)` as written in scoring.ts: empty list, singleton and
general cases, with the population variance computed by a fold. -/
noncomputable def fitNormal (values : List ℝ) : NormalFit :=
  if values.length = 0 then { mu := 0, sigma := 0 }
  else
    let mu := (values.foldl (fun s v => s + v) 0) / (values.length : ℝ)
    if values.length ≤ 1 then { mu := mu, sigma := 0 }
    else
      let variance :=
        (values.foldl (fun s v => s + (v - mu) ^ 2) 0) / (values.length : ℝ)
      { mu := mu, sigma := Real.sqrt variance }

/-- Arithmetic mean, as the specification words it. -/
noncomputable def listMean (values : List ℝ) : ℝ :=
  values.sum / (values.length : ℝ)

/-- Population variance (divide by `n`, not `n - 1`), as the specification
words it. -/
noncomputable def popVariance (values : List ℝ) : ℝ :=
  ((values.map (fun v => (v - listMean values) ^ 2)).sum) / (values.length : ℝ)

/-- The Abramowitz–Stegun rational error-function approximation exactly as
implemented in scoring.ts, read over the reals. -/
noncomputable def erf (x : ℝ) : ℝ :=
  let sign : ℝ := if x < 0 then -1 else 1
  let absX := |x|
  let t := 1 / (1 + 0.3275911 * absX)
  let a1 : ℝ := 0.254829592
  let a2 : ℝ := -0.284496736
  let a3 : ℝ := 1.421413741
  let a4 : ℝ := -1.453152027
  let a5 : ℝ := 1.061405429
  let poly := (((a5 * t + a4) * t + a3) * t + a2) * t + a1
  let y := 1 - poly * t * Real.exp (-absX * absX)
  sign * y

/-- `normalCdf(z) = 0.5 * (1 + erf(z / sqrt 2))`. -/
noncomputable def normalCdf (z : ℝ) : ℝ :=
  0.5 * (1 + erf (z / Real.sqrt 2))

/-! ### Normality estimator (analysis.ts) -/

/-- The fields of an `AnimeEntry` consumed by the core; external scores are
numbers compared exactly, modelled as rationals. -/
structure AnimeEntry where
  animeId : ℕ
  title : String
  status : Option String
  myScore : Option ℚ

/-- The positive external scores of an entry list, in order
(`entries.map(e => e.myScore).filter(s => Boolean(s && s > 0))`). -/
def malScores (entries : List AnimeEntry) : List ℚ :=
  entries.filterMap (fun e =>
    match e.myScore with
    | some sc => if 0 < sc then some sc else none
    | none => none)

/-- Result of the normality estimator. -/
structure MalNormality where
  scores : List ℚ
  fit : NormalFit
  normality : ℝ

/-- `malScoreSummary(entries)`: fewer than 10 positive scores give neutral
normality 0.5; a degenerate fit gives 0; otherwise one minus half the L1
distance between observed and fitted bucket frequencies, clamped to [0,1]. -/
noncomputable def malScoreSummary (entries : List AnimeEntry) :
    MalNormality :=
  let scores := malScores entries
  let fit := fitNormal (scores.map (fun q => (q : ℝ)))
  if scores.length < 10 then
    { scores := scores, fit := fit, normality := 0.5 }
  else if fit.sigma ≤ 0 then
    { scores := scores, fit := fit, normality := 0 }
  else
    let total : ℝ := scores.length
    let l1 :=
      ((List.range 10).map (fun idx =>
        let score : ℚ := idx + 1
        let observed := ((scores.filter (fun s => s = score)).length : ℝ) / total
        let expected :=
          normalCdf (((score : ℝ) + 0.5 - fit.mu) / fit.sigma) -
            normalCdf (((score : ℝ) - 0.5 - fit.mu) / fit.sigma)
        |observed - expected|)).sum
    { scores := scores, fit := fit
    , normality := max 0 (min 1 (1 - l1 / 2)) }

/-! ### Blender (results.ts) -/

/-- `computeEloWeight(completionRatio, malNormality) = ratio ^ (1 + (1 - normality))`
after clamping both arguments to [0, 1]. -/
noncomputable def computeEloWeight (completionRatio malNormality : ℝ) : ℝ :=
  let ratio := max 0 (min 1 completionRatio)
  let normality := max 0 (min 1 malNormality)
  let exponent := 1 + (1 - normality)
  ratio ^ exponent

/-! ### Pair sampler (elo.ts `selectPair` and random.ts) -/

/-- Options bag for `selectPair`, after defaulting; the mutable `rng`
closure is modelled as the stream of its successive results. -/
structure SelectPairOptions where
  rng : ℕ → ℝ
  avoidRepeats : Bool
  maxAttempts : ℕ
  priorityById : Option (List (ℕ × ℝ))
  priorityBoost : ℝ
  scoreById : Option (List (ℕ × Option ℝ))
  sameScoreBoost : ℝ

/-- Cumulative walk of `weightedChoice`: return the first item whose
running weight total reaches the target. -/
noncomputable def weightedChoiceGo (target : ℝ) (running : ℝ) :
    List (ℕ × ℝ) → Option ℕ
  | [] => none
  | (x, w) :: rest =>
      if target ≤ running + w then some x
      else weightedChoiceGo target (running + w) rest

/-- `weightedChoice(items, weights, rng)` from random.ts, consuming one
draw `r`: non-positive total weight falls back to a clamped uniform index,
rounding shortfall falls back to the last item. -/
noncomputable def weightedChoice (items : List ℕ) (weights : List ℝ)
    (r : ℝ) : ℕ :=
  let total := weights.sum
  if total ≤ 0 then
    let idx : ℤ := ⌊r * (items.length : ℝ)⌋
    items.getD (max 0 (min ((items.length : ℤ) - 1) idx)).toNat 0
  else
    match weightedChoiceGo (r * total) 0 (items.zip weights) with
    | some x => x
    | none => items.getD (items.length - 1) 0

/-- The rating of an item (`ratingFor`, an unchecked `as Rating` cast in
the code). -/
def ratingFor (elo : EloState) (animeId : ℕ) : Rating :=
  (mapGet elo.ratings animeId).getD defaultRating

/-- Per-item sampling weight: `1 / (1 + games)`, multiplied by the
priority boost when a priority map is supplied and the boost is positive. -/
noncomputable def pairWeight (elo : EloState) (opts : SelectPairOptions)
    (i : ℕ) : ℝ :=
  let base := 1 / (1 + ((ratingFor elo i).games : ℝ))
  match opts.priorityById with
  | none => base
  | some pm =>
      if opts.priorityBoost ≤ 0 then base
      else base * (1 + opts.priorityBoost * ((mapGet pm i).getD 0))

/-- Stable insertion of an element into a sorted list, keeping it before
every element it does not strictly follow. -/
noncomputable def insertLe (le : ℕ → ℕ → Prop) [DecidableRel le] (x : ℕ) :
    List ℕ → List ℕ
  | [] => [x]
  | y :: ys => if le x y then x :: y :: ys else y :: insertLe le x ys

/-- Stable ascending sort, modelling `Array.prototype.sort` with a
consistent numeric comparator (stable since ES2019). -/
noncomputable def stableSortBy (le : ℕ → ℕ → Prop) [DecidableRel le] :
    List ℕ → List ℕ
  | [] => []
  | x :: xs => insertLe le x (stableSortBy le xs)

/-- The candidate pool for an anchor: the other items sorted by rating
closeness, truncated to at most 60. -/
noncomputable def selectPairCandidates (elo : EloState) (animeIds : List ℕ)
    (aId : ℕ) : List ℕ :=
  let aRating := (ratingFor elo aId).value
  (stableSortBy
      (fun l r =>
        |(ratingFor elo l).value - aRating| ≤ |(ratingFor elo r).value - aRating|)
      (animeIds.filter (fun i => i ≠ aId))).take
    (min 60 (animeIds.length - 1))

/-- Weight of a candidate against an anchor: closeness times base weight,
boosted when anchor and candidate share an identical external score. -/
noncomputable def candWeight (elo : EloState) (opts : SelectPairOptions)
    (aId : ℕ) (i : ℕ) : ℝ :=
  let aRating := (ratingFor elo aId).value
  let diff := |(ratingFor elo i).value - aRating|
  let closeness := 1 / (1 + diff / 100)
  let w := closeness * pairWeight elo opts i
  match opts.scoreById with
  | none => w
  | some sm =>
      match mapGet sm aId with
      | none => w
      | some none => w
      | some (some sA) =>
          if mapGet sm i = some (some sA) then
            let priority :=
              match opts.priorityById with
              | none => 0
              | some pm => (mapGet pm aId).getD 0
            w * (1 + opts.sameScoreBoost * priority)
          else w

/-- The bounded retry loop of `selectPair`: draw an anchor and a candidate
(two rng draws per attempt), discard repeated pairs while attempts remain. -/
noncomputable def selectPairLoop (elo : EloState) (animeIds : List ℕ)
    (opts : SelectPairOptions) (allWeights : List ℝ) :
    ℕ → ℕ → Option (ℕ × ℕ)
  | 0, _ => none
  | fuel + 1, ix =>
      let aId := weightedChoice animeIds allWeights (opts.rng ix)
      let candidates := selectPairCandidates elo animeIds aId
      let cw := candidates.map (candWeight elo opts aId)
      let bId := weightedChoice candidates cw (opts.rng (ix + 1))
      if opts.avoidRepeats = true ∧ pairKey aId bId ∈ elo.pairHistory then
        selectPairLoop elo animeIds opts allWeights fuel (ix + 2)
      else some (aId, bId)

/-- `selectPair(elo, animeIds, options)`: fail below two items, otherwise
run the retry loop and, when every attempt was discarded, fall back to a
uniformly random ordered pair of distinct indices (which consults neither
the pair history nor the weights). -/
noncomputable def selectPair (elo : EloState) (animeIds : List ℕ)
    (opts : SelectPairOptions) : Except EloError (ℕ × ℕ) :=
  if animeIds.length < 2 then .error .insufficientItems
  else
    let allWeights := animeIds.map (pairWeight elo opts)
    match selectPairLoop elo animeIds opts allWeights opts.maxAttempts 0 with
    | some p => .ok p
    | none =>
        let ix := 2 * opts.maxAttempts
        let firstIndex : ℤ := ⌊opts.rng ix * (animeIds.length : ℝ)⌋
        let second0 : ℤ := ⌊opts.rng (ix + 1) * ((animeIds.length : ℝ) - 1)⌋
        let secondIndex := if firstIndex ≤ second0 then second0 + 1 else second0
        .ok (animeIds.getD firstIndex.toNat 0, animeIds.getD secondIndex.toNat 0)

/-! ### Association-list lemmas -/

theorem mapGet_mem {l : List (ℕ × α)} {k : ℕ} {v : α}
    (h : mapGet l k = some v) : (k, v) ∈ l := by
  induction l with
  | nil => simp [mapGet] at h
  | cons p t ih =>
      obtain ⟨k', v'⟩ := p
      simp only [mapGet] at h
      by_cases hk : k' = k
      · subst hk
        rw [if_pos rfl] at h
        injection h with h
        subst h
        exact List.mem_cons_self _ _
      · rw [if_neg hk] at h
        exact List.mem_cons_of_mem _ (ih h)

theorem mem_keysOf_iff_mapGet {l : List (ℕ × α)} {k : ℕ} :
    k ∈ keysOf l ↔ ∃ v, mapGet l k = some v := by
  induction l with
  | nil => simp [keysOf, mapGet]
  | cons p t ih =>
      obtain ⟨k', v'⟩ := p
      simp only [keysOf, List.map_cons, List.mem_cons, mapGet]
      by_cases hk : k' = k
      · subst hk
        simp
      · rw [if_neg hk]
        simp only [keysOf] at ih
        rw [ih]
        constructor
        · rintro (h | h)
          · exact absurd h.symm hk
          · exact h
        · exact Or.inr

theorem map_replace_of_not_mem {l : List (ℕ × α)} {k : ℕ} {v : α}
    (h : k ∉ keysOf l) :
    l.map (fun p => if p.1 = k then (k, v) else p) = l := by
  induction l with
  | nil => rfl
  | cons p t ih =>
      obtain ⟨k', v'⟩ := p
      simp only [keysOf, List.map_cons, List.mem_cons, not_or] at h
      simp only [List.map_cons]
      rw [if_neg (show ¬ ((k', v').1 = k) from fun hh => h.1 hh.symm)]
      rw [ih (by simpa [keysOf] using h.2)]

theorem keysOf_map_replace {l : List (ℕ × α)} {k : ℕ} {v : α} :
    keysOf (l.map (fun p => if p.1 = k then (k, v) else p)) = keysOf l := by
  induction l with
  | nil => rfl
  | cons p t ih =>
      obtain ⟨k', v'⟩ := p
      simp only [keysOf, List.map_cons] at ih ⊢
      have hhead : (if (k', v').1 = k then (k, v) else (k', v')).1 = k' := by
        by_cases hk : k' = k
        · simp [hk]
        · simp [hk]
      rw [hhead, ih]

theorem mapGet_map_replace_of_mem {l : List (ℕ × α)} {k : ℕ} {v : α}
    (hk : k ∈ keysOf l) :
    mapGet (l.map (fun p => if p.1 = k then (k, v) else p)) k = some v := by
  induction l with
  | nil => simp [keysOf] at hk
  | cons p t ih =>
      obtain ⟨k', v'⟩ := p
      simp only [List.map_cons]
      by_cases hk' : k' = k
      · subst hk'
        rw [if_pos rfl]
        simp [mapGet]
      · rw [if_neg (show ¬ ((k', v').1 = k) from hk')]
        simp only [mapGet]
        rw [if_neg hk']
        apply ih
        simp only [keysOf, List.map_cons, List.mem_cons] at hk
        rcases hk with h | h
        · exact absurd h.symm hk'
        · exact h

theorem mapGet_append_self {l : List (ℕ × α)} {k : ℕ} {v : α}
    (hk : k ∉ keysOf l) : mapGet (l ++ [(k, v)]) k = some v := by
  induction l with
  | nil => simp [mapGet]
  | cons p t ih =>
      obtain ⟨k', v'⟩ := p
      simp only [keysOf, List.map_cons, List.mem_cons, not_or] at hk
      rw [List.cons_append]
      simp only [mapGet]
      rw [if_neg (fun hh => hk.1 hh.symm)]
      exact ih (by simpa [keysOf] using hk.2)

theorem mapGet_mapSet_self {l : List (ℕ × α)} {k : ℕ} {v : α} :
    mapGet (mapSet l k v) k = some v := by
  rw [mapSet]
  by_cases hk : k ∈ keysOf l
  · rw [if_pos hk]
    exact mapGet_map_replace_of_mem hk
  · rw [if_neg hk]
    exact mapGet_append_self hk

theorem mapGet_map_replace_ne {l : List (ℕ × α)} {k k' : ℕ} {v : α}
    (h : k' ≠ k) :
    mapGet (l.map (fun p => if p.1 = k then (k, v) else p)) k' = mapGet l k' := by
  induction l with
  | nil => rfl
  | cons p t ih =>
      obtain ⟨k'', v''⟩ := p
      simp only [List.map_cons]
      by_cases hk'' : k'' = k
      · subst hk''
        rw [if_pos rfl]
        simp only [mapGet]
        rw [if_neg (fun hh => h hh.symm), if_neg (fun hh => h hh.symm)]
        exact ih
      · rw [if_neg (show ¬ ((k'', v'').1 = k) from hk'')]
        simp only [mapGet]
        by_cases he : k'' = k'
        · rw [if_pos he, if_pos he]
        · rw [if_neg he, if_neg he]
          exact ih

theorem mapGet_append_ne {l : List (ℕ × α)} {k k' : ℕ} {v : α}
    (h : k' ≠ k) : mapGet (l ++ [(k, v)]) k' = mapGet l k' := by
  induction l with
  | nil =>
      simp only [List.nil_append, mapGet]
      rw [if_neg (fun hh => h hh.symm)]
  | cons p t ih =>
      obtain ⟨k'', v''⟩ := p
      rw [List.cons_append]
      simp only [mapGet]
      by_cases he : k'' = k'
      · rw [if_pos he, if_pos he]
      · rw [if_neg he, if_neg he]
        exact ih

theorem mapGet_mapSet_ne {l : List (ℕ × α)} {k k' : ℕ} {v : α}
    (h : k' ≠ k) : mapGet (mapSet l k v) k' = mapGet l k' := by
  rw [mapSet]
  by_cases hk : k ∈ keysOf l
  · rw [if_pos hk]
    exact mapGet_map_replace_ne h
  · rw [if_neg hk]
    exact mapGet_append_ne h

theorem keysOf_mapSet_of_mem {l : List (ℕ × α)} {k : ℕ} {v : α}
    (h : k ∈ keysOf l) : keysOf (mapSet l k v) = keysOf l := by
  rw [mapSet, if_pos h]
  exact keysOf_map_replace

theorem keysOf_mapSet_of_not_mem {l : List (ℕ × α)} {k : ℕ} {v : α}
    (h : k ∉ keysOf l) : keysOf (mapSet l k v) = keysOf l ++ [k] := by
  rw [mapSet, if_neg h]
  simp [keysOf]

theorem nodup_keysOf_mapSet {l : List (ℕ × α)} {k : ℕ} {v : α}
    (h : (keysOf l).Nodup) : (keysOf (mapSet l k v)).Nodup := by
  by_cases hk : k ∈ keysOf l
  · rw [keysOf_mapSet_of_mem hk]
    exact h
  · rw [keysOf_mapSet_of_not_mem hk]
    rw [List.nodup_append]
    refine ⟨h, List.nodup_singleton _, ?_⟩
    intro x hx hx'
    simp only [List.mem_singleton] at hx'
    subst hx'
    exact hk hx

theorem length_mapSet_of_mem {l : List (ℕ × α)} {k : ℕ} {v : α}
    (h : k ∈ keysOf l) : (mapSet l k v).length = l.length := by
  rw [mapSet, if_pos h, List.length_map]

theorem gamesSum_mapSet {l : List (ℕ × Rating)} {k : ℕ} {v : Rating}
    (hk : k ∈ keysOf l) (hnd : (keysOf l).Nodup) :
    gamesSum (mapSet l k v) + ((mapGet l k).getD defaultRating).games =
      gamesSum l + v.games := by
  rw [mapSet, if_pos hk]
  induction l with
  | nil => simp [keysOf] at hk
  | cons p t ih =>
      obtain ⟨k', r⟩ := p
      simp only [keysOf, List.map_cons, List.nodup_cons] at hnd
      by_cases hk' : k' = k
      · subst hk'
        have hnt : k' ∉ keysOf t := by simpa [keysOf] using hnd.1
        rw [List.map_cons, if_pos (show ((k', r).1 = k') from rfl),
          map_replace_of_not_mem hnt]
        simp only [mapGet, if_pos rfl]
        simp [gamesSum]
        omega
      · have hkt : k ∈ keysOf t := by
          simp only [keysOf, List.map_cons, List.mem_cons] at hk
          rcases hk with h | h
          · exact absurd h.symm hk'
          · exact h
        rw [List.map_cons, if_neg (show ¬ ((k', r).1 = k) from hk')]
        simp only [mapGet]
        rw [if_neg hk']
        have := ih hkt (by simpa [keysOf] using hnd.2)
        simp only [gamesSum, List.map_cons, List.sum_cons] at this ⊢
        omega

theorem valueSum_mapSet {l : List (ℕ × Rating)} {k : ℕ} {v : Rating}
    (hk : k ∈ keysOf l) (hnd : (keysOf l).Nodup) :
    valueSum (mapSet l k v) + ((mapGet l k).getD defaultRating).value =
      valueSum l + v.value := by
  rw [mapSet, if_pos hk]
  induction l with
  | nil => simp [keysOf] at hk
  | cons p t ih =>
      obtain ⟨k', r⟩ := p
      simp only [keysOf, List.map_cons, List.nodup_cons] at hnd
      by_cases hk' : k' = k
      · subst hk'
        have hnt : k' ∉ keysOf t := by simpa [keysOf] using hnd.1
        rw [List.map_cons, if_pos (show ((k', r).1 = k') from rfl),
          map_replace_of_not_mem hnt]
        simp only [mapGet, if_pos rfl]
        simp [valueSum]
        ring
      · have hkt : k ∈ keysOf t := by
          simp only [keysOf, List.map_cons, List.mem_cons] at hk
          rcases hk with h | h
          · exact absurd h.symm hk'
          · exact h
        rw [List.map_cons, if_neg (show ¬ ((k', r).1 = k) from hk')]
        simp only [mapGet]
        rw [if_neg hk']
        have := ih hkt (by simpa [keysOf] using hnd.2)
        simp only [valueSum, List.map_cons, List.sum_cons] at this ⊢
        linarith

/-! ### Fresh-state lemmas -/

theorem foldl_mapSet_nodup (fr : Rating) (ids : List ℕ) :
    ∀ m : List (ℕ × Rating), (keysOf m).Nodup →
      (keysOf (ids.foldl (fun m i => mapSet m i fr) m)).Nodup := by
  induction ids with
  | nil => intro m hm; simpa using hm
  | cons i t ih =>
      intro m hm
      simp only [List.foldl_cons]
      exact ih _ (nodup_keysOf_mapSet hm)

theorem foldl_mapSet_mem_keys (fr : Rating) (ids : List ℕ) :
    ∀ (m : List (ℕ × Rating)) (j : ℕ),
      (j ∈ keysOf (ids.foldl (fun m i => mapSet m i fr) m) ↔
        j ∈ keysOf m ∨ j ∈ ids) := by
  induction ids with
  | nil => intro m j; simp
  | cons i t ih =>
      intro m j
      simp only [List.foldl_cons, List.mem_cons]
      rw [ih]
      by_cases hk : i ∈ keysOf m
      · rw [keysOf_mapSet_of_mem hk]
        constructor
        · rintro (h | h)
          · exact Or.inl h
          · exact Or.inr (Or.inr h)
        · rintro (h | h | h)
          · exact Or.inl h
          · subst h; exact Or.inl hk
          · exact Or.inr h
      · rw [keysOf_mapSet_of_not_mem hk]
        simp only [List.mem_append, List.mem_singleton]
        constructor
        · rintro ((h | h) | h)
          · exact Or.inl h
          · exact Or.inr (Or.inl h)
          · exact Or.inr (Or.inr h)
        · rintro (h | h | h)
          · exact Or.inl (Or.inl h)
          · exact Or.inl (Or.inr h)
          · exact Or.inr h

theorem mem_mapSet_entries {l : List (ℕ × α)} {k : ℕ} {v : α} {p : ℕ × α}
    (h : p ∈ mapSet l k v) : p ∈ l ∨ p = (k, v) := by
  rw [mapSet] at h
  by_cases hk : k ∈ keysOf l
  · rw [if_pos hk] at h
    obtain ⟨q, hq, hqe⟩ := List.mem_map.mp h
    by_cases hqk : q.1 = k
    · rw [if_pos hqk] at hqe
      exact Or.inr hqe.symm
    · rw [if_neg hqk] at hqe
      exact Or.inl (hqe ▸ hq)
  · rw [if_neg hk] at h
    rcases List.mem_append.mp h with h | h
    · exact Or.inl h
    · simp only [List.mem_singleton] at h
      exact Or.inr h

theorem foldl_mapSet_entries (fr : Rating) (ids : List ℕ) :
    ∀ m : List (ℕ × Rating), (∀ p ∈ m, p.2 = fr) →
      ∀ p ∈ ids.foldl (fun m i => mapSet m i fr) m, p.2 = fr := by
  induction ids with
  | nil => intro m hm; simpa using hm
  | cons i t ih =>
      intro m hm
      simp only [List.foldl_cons]
      refine ih _ ?_
      intro p hp
      rcases mem_mapSet_entries hp with h | h
      · exact hm p h
      · rw [h]

theorem createEloState_nodup (ids : List ℕ) (k r : ℝ) :
    (keysOf (createEloState ids k r).ratings).Nodup :=
  foldl_mapSet_nodup _ ids [] (by simp [keysOf])

theorem createEloState_mem_keys (ids : List ℕ) (k r : ℝ) (j : ℕ) :
    j ∈ keysOf (createEloState ids k r).ratings ↔ j ∈ ids := by
  rw [show (createEloState ids k r).ratings =
    ids.foldl (fun m i => mapSet m i (freshRating r)) [] from rfl]
  rw [foldl_mapSet_mem_keys]
  simp [keysOf]

theorem createEloState_entries (ids : List ℕ) (k r : ℝ) :
    ∀ p ∈ (createEloState ids k r).ratings, p.2 = freshRating r :=
  foldl_mapSet_entries _ ids [] (by simp)

theorem createEloState_mapGet {ids : List ℕ} {k r : ℝ} {j : ℕ}
    (h : j ∈ ids) :
    mapGet (createEloState ids k r).ratings j = some (freshRating r) := by
  have hmem : j ∈ keysOf (createEloState ids k r).ratings :=
    (createEloState_mem_keys ids k r j).mpr h
  obtain ⟨v, hv⟩ := mem_keysOf_iff_mapGet.mp hmem
  have h2 := createEloState_entries ids k r _ (mapGet_mem hv)
  simp only at h2
  rw [hv, h2]

theorem gamesSum_const_zero {l : List (ℕ × Rating)}
    (h : ∀ p ∈ l, p.2.games = 0) : gamesSum l = 0 := by
  induction l with
  | nil => rfl
  | cons p t ih =>
      simp only [gamesSum, List.map_cons, List.sum_cons]
      rw [h p (List.mem_cons_self _ _)]
      simpa [gamesSum] using ih (fun q hq => h q (List.mem_cons_of_mem _ hq))

theorem valueSum_const {l : List (ℕ × Rating)} {c : ℝ}
    (h : ∀ p ∈ l, p.2.value = c) : valueSum l = l.length * c := by
  induction l with
  | nil => simp [valueSum]
  | cons p t ih =>
      simp only [valueSum, List.map_cons, List.sum_cons, List.length_cons]
      rw [h p (List.mem_cons_self _ _)]
      have := ih (fun q hq => h q (List.mem_cons_of_mem _ hq))
      simp only [valueSum] at this
      rw [this]
      push_cast
      ring

theorem createEloState_gamesSum (ids : List ℕ) (k r : ℝ) :
    gamesSum (createEloState ids k r).ratings = 0 :=
  gamesSum_const_zero (fun p hp => by rw [createEloState_entries ids k r p hp]; rfl)

theorem createEloState_valueSum (ids : List ℕ) (k r : ℝ) :
    valueSum (createEloState ids k r).ratings =
      ((createEloState ids k r).ratings.length : ℝ) * r :=
  valueSum_const (fun p hp => by rw [createEloState_entries ids k r p hp]; rfl)

/-! ### Elo update lemmas -/

theorem expectedScore_self (v : ℝ) : expectedScore v v = 1 / 2 := by
  rw [expectedScore, sub_self, zero_div, Real.rpow_zero]
  norm_num



theorem recordOutcome_ok_spec (s : EloState) (a b : ℕ) (o : ℚ)
    (hab : a ≠ b) (ho : o = 0 ∨ o = 1/2 ∨ o = 1) (ra0 rb0 : Rating)
    (hra : mapGet s.ratings a = some ra0)
    (hrb : mapGet s.ratings b = some rb0) :
    ∃ ra1 rb1 : Rating,
      recordOutcome s a b o = .ok
        { s with
          ratings := mapSet (mapSet s.ratings a ra1) b rb1,
          pairHistory := setAdd s.pairHistory (pairKey a b),
          comparisons := s.comparisons + 1 } ∧
      ra1.games = ra0.games + 1 ∧ rb1.games = rb0.games + 1 ∧
      ra1.value + rb1.value = ra0.value + rb0.value := by
  have hno : ¬¬(o = 0 ∨ o = 1/2 ∨ o = 1) := not_not_intro ho
  unfold recordOutcome
  rw [if_neg hab, if_neg hno]
  simp only [hra, hrb, Option.getD_some]
  rcases ho with rfl | rfl | rfl
  · refine ⟨_, _, rfl, ?_, ?_, ?_⟩
    · norm_num
    · norm_num
    · norm_num
      ring
  · refine ⟨_, _, rfl, ?_, ?_, ?_⟩
    · norm_num
    · norm_num
    · norm_num
      ring
  · refine ⟨_, _, rfl, ?_, ?_, ?_⟩
    · norm_num
    · norm_num
    · norm_num
      ring

theorem recordOutcome_step (s : EloState) (c : OutcomeCall)
    (hnd : (keysOf s.ratings).Nodup)
    (hv : ValidCall (keysOf s.ratings) c) :
    ∃ s', recordOutcome s c.aId c.bId c.outcomeForA = .ok s' ∧
      s'.comparisons = s.comparisons + 1 ∧
      gamesSum s'.ratings = gamesSum s.ratings + 2 ∧
      valueSum s'.ratings = valueSum s.ratings ∧
      keysOf s'.ratings = keysOf s.ratings ∧
      (keysOf s'.ratings).Nodup ∧
      s'.ratings.length = s.ratings.length ∧
      s'.initialRating = s.initialRating ∧
      s'.kFactor = s.kFactor ∧ s'.skips = s.skips := by
  obtain ⟨hab, ho, hamem, hbmem⟩ := hv
  obtain ⟨ra0, hra⟩ := mem_keysOf_iff_mapGet.mp hamem
  obtain ⟨rb0, hrb⟩ := mem_keysOf_iff_mapGet.mp hbmem
  obtain ⟨ra1, rb1, heq, hg1, hg2, hval⟩ :=
    recordOutcome_ok_spec s _ _ _ hab ho ra0 rb0 hra hrb
  have hba : c.bId ≠ c.aId := fun hh => hab hh.symm
  have hkeys1 : keysOf (mapSet s.ratings c.aId ra1) = keysOf s.ratings :=
    keysOf_mapSet_of_mem hamem
  have hbmem1 : c.bId ∈ keysOf (mapSet s.ratings c.aId ra1) := by
    rw [hkeys1]
    exact hbmem
  have hnd1 : (keysOf (mapSet s.ratings c.aId ra1)).Nodup :=
    nodup_keysOf_mapSet hnd
  have hget1 : mapGet (mapSet s.ratings c.aId ra1) c.bId = some rb0 := by
    rw [mapGet_mapSet_ne hba, hrb]
  have hkeys2 :
      keysOf (mapSet (mapSet s.ratings c.aId ra1) c.bId rb1) =
        keysOf s.ratings := by
    rw [keysOf_mapSet_of_mem hbmem1, hkeys1]
  have hsum1 := @gamesSum_mapSet _ _ ra1 hamem hnd
  have hsum2 := @gamesSum_mapSet _ _ rb1 hbmem1 hnd1
  have hvsum1 := @valueSum_mapSet _ _ ra1 hamem hnd
  have hvsum2 := @valueSum_mapSet _ _ rb1 hbmem1 hnd1
  rw [hra, Option.getD_some] at hsum1 hvsum1
  rw [hget1, Option.getD_some] at hsum2 hvsum2
  refine ⟨_, heq, rfl, ?_, ?_, hkeys2, ?_, ?_, rfl, rfl, rfl⟩
  · show gamesSum (mapSet (mapSet s.ratings c.aId ra1) c.bId rb1) =
      gamesSum s.ratings + 2
    omega
  · show valueSum (mapSet (mapSet s.ratings c.aId ra1) c.bId rb1) =
      valueSum s.ratings
    linarith
  · rw [hkeys2]
    exact hnd
  · show (mapSet (mapSet s.ratings c.aId ra1) c.bId rb1).length =
      s.ratings.length
    rw [length_mapSet_of_mem hbmem1, length_mapSet_of_mem hamem]

theorem applyCalls_inv (calls : List OutcomeCall) :
    ∀ s : EloState, (keysOf s.ratings).Nodup →
      (∀ c ∈ calls, ValidCall (keysOf s.ratings) c) →
      (applyCalls s calls).comparisons = s.comparisons + calls.length ∧
      gamesSum (applyCalls s calls).ratings =
        gamesSum s.ratings + 2 * calls.length ∧
      valueSum (applyCalls s calls).ratings = valueSum s.ratings ∧
      keysOf (applyCalls s calls).ratings = keysOf s.ratings ∧
      (applyCalls s calls).ratings.length = s.ratings.length ∧
      (applyCalls s calls).initialRating = s.initialRating := by
  induction calls with
  | nil =>
      intro s hnd hv
      simp [applyCalls]
  | cons c t ih =>
      intro s hnd hv
      obtain ⟨s', heq, hcomp, hgames, hvalue, hkeys, hnd', hlen, hinit, hk,
        hskips⟩ := recordOutcome_step s c hnd (hv c (List.mem_cons_self _ _))
      have happ : applyCalls s (c :: t) = applyCalls s' t := by
        simp only [applyCalls, List.foldl_cons, heq]
      rw [happ]
      have ihres := ih s' hnd' (fun c' hc' => by
        rw [hkeys]
        exact hv c' (List.mem_cons_of_mem _ hc'))
      obtain ⟨i1, i2, i3, i4, i5, i6⟩ := ihres
      refine ⟨?_, ?_, ?_, ?_, ?_, ?_⟩
      · rw [i1, hcomp, List.length_cons]
        ring
      · rw [i2, hgames, List.length_cons]
        ring
      · rw [i3, hvalue]
      · rw [i4, hkeys]
      · rw [i5, hlen]
      · rw [i6, hinit]

theorem recordOutcome_win_spec (s : EloState) (a b : ℕ) (hab : a ≠ b)
    (ra0 rb0 : Rating) (hra : mapGet s.ratings a = some ra0)
    (hrb : mapGet s.ratings b = some rb0) :
    recordOutcome s a b 1 = .ok
      { s with
        ratings := mapSet (mapSet s.ratings a
          { value := ra0.value + s.kFactor * (1 - expectedScore ra0.value rb0.value),
            games := ra0.games + 1, wins := ra0.wins + 1,
            losses := ra0.losses, ties := ra0.ties }) b
          { value := rb0.value - s.kFactor * (1 - expectedScore ra0.value rb0.value),
            games := rb0.games + 1, wins := rb0.wins,
            losses := rb0.losses + 1, ties := rb0.ties },
        pairHistory := setAdd s.pairHistory (pairKey a b),
        comparisons := s.comparisons + 1 } := by
  unfold recordOutcome
  rw [if_neg hab,
    if_neg (show ¬¬((1 : ℚ) = 0 ∨ (1 : ℚ) = 1/2 ∨ (1 : ℚ) = 1) by norm_num)]
  simp only [hra, hrb, Option.getD_some, if_pos (rfl : (1 : ℚ) = 1)]
  norm_num
  have hv : rb0.value + s.kFactor * (expectedScore ra0.value rb0.value - 1) =
      rb0.value - s.kFactor * (1 - expectedScore ra0.value rb0.value) := by
    ring
  rw [hv]

/-! ### Claim theorems: rating store -/

/-- C1: from a `createEloState` over the five items 1..5 with k-factor 32
(all ratings at the initial 1500), `recordOutcome(state, 1, 2, 1)` yields a
state where item 1 holds rating 1516 with one game (a win) and item 2 holds
rating 1484 with one game (a loss). -/
theorem claim_c1_win_scenario :
    ∃ s', recordOutcome (createEloState [1, 2, 3, 4, 5] 32 1500) 1 2 1 =
        Except.ok s' ∧
      mapGet s'.ratings 1 =
        some { value := 1516, games := 1, wins := 1, losses := 0, ties := 0 } ∧
      mapGet s'.ratings 2 =
        some { value := 1484, games := 1, wins := 0, losses := 1, ties := 0 } := by
  have hra : mapGet (createEloState [1, 2, 3, 4, 5] 32 1500).ratings 1 =
      some (freshRating 1500) := createEloState_mapGet (by norm_num)
  have hrb : mapGet (createEloState [1, 2, 3, 4, 5] 32 1500).ratings 2 =
      some (freshRating 1500) := createEloState_mapGet (by norm_num)
  have h := recordOutcome_win_spec _ 1 2 (by norm_num) _ _ hra hrb
  refine ⟨_, h, ?_, ?_⟩
  · show mapGet (mapSet (mapSet (createEloState [1, 2, 3, 4, 5] 32 1500).ratings
      1 _) 2 _) 1 = _
    rw [mapGet_mapSet_ne (by norm_num), mapGet_mapSet_self]
    rw [show (createEloState [1, 2, 3, 4, 5] 32 1500).kFactor = 32 from rfl]
    rw [show (freshRating 1500).value = 1500 from rfl]
    rw [expectedScore_self]
    norm_num [freshRating]
  · show mapGet (mapSet (mapSet (createEloState [1, 2, 3, 4, 5] 32 1500).ratings
      1 _) 2 _) 2 = _
    rw [mapGet_mapSet_self]
    rw [show (createEloState [1, 2, 3, 4, 5] 32 1500).kFactor = 32 from rfl]
    rw [show (freshRating 1500).value = 1500 from rfl]
    rw [expectedScore_self]
    norm_num [freshRating]

/-- C4: starting from a fresh `createEloState`, any sequence of `n` valid
recorded outcomes (distinct session ids, outcomes in 0, 0.5, 1) leaves
`comparisons = n` and the sum of the `games` counters equal to `2 * n`. -/
theorem claim_c4_counters (ids : List ℕ) (k r0 : ℝ)
    (calls : List OutcomeCall) (hv : ∀ c ∈ calls, ValidCall ids c) :
    (applyCalls (createEloState ids k r0) calls).comparisons = calls.length ∧
    gamesSum (applyCalls (createEloState ids k r0) calls).ratings =
      2 * calls.length := by
  have hnd := createEloState_nodup ids k r0
  have hv' : ∀ c ∈ calls,
      ValidCall (keysOf (createEloState ids k r0).ratings) c := by
    intro c hc
    obtain ⟨h1, h2, h3, h4⟩ := hv c hc
    exact ⟨h1, h2, (createEloState_mem_keys ids k r0 _).mpr h3,
      (createEloState_mem_keys ids k r0 _).mpr h4⟩
  obtain ⟨i1, i2, _, _, _, _⟩ := applyCalls_inv calls _ hnd hv'
  refine ⟨?_, ?_⟩
  · rw [i1, show (createEloState ids k r0).comparisons = 0 from rfl]
    omega
  · rw [i2, createEloState_gamesSum]
    omega

/-- Witness for C4 at a concrete two-item session with one recorded win. -/
theorem claim_c4_counters_witness :
    (∀ c ∈ [({ aId := 1, bId := 2, outcomeForA := 1 } : OutcomeCall)],
      ValidCall [1, 2] c) ∧
    ((applyCalls (createEloState [1, 2] 32 1500)
        [{ aId := 1, bId := 2, outcomeForA := 1 }]).comparisons =
      [({ aId := 1, bId := 2, outcomeForA := 1 } : OutcomeCall)].length ∧
    gamesSum (applyCalls (createEloState [1, 2] 32 1500)
        [{ aId := 1, bId := 2, outcomeForA := 1 }]).ratings =
      2 * [({ aId := 1, bId := 2, outcomeForA := 1 } : OutcomeCall)].length) :=
  ⟨by norm_num [ValidCall], claim_c4_counters [1, 2] 32 1500 _
    (by norm_num [ValidCall])⟩

/-- C6: `recordOutcome` fails with `InvalidPair` exactly when the two ids
coincide, fails with `InvalidOutcome` exactly when the ids differ and the
outcome is not one of 0, 0.5, 1, and succeeds with a new state for distinct
ids present in the state and a valid outcome. -/
theorem claim_c6_error_conditions (s : EloState) (a b : ℕ) (o : ℚ) :
    (recordOutcome s a b o = .error .invalidPair ↔ a = b) ∧
    (recordOutcome s a b o = .error .invalidOutcome ↔
      a ≠ b ∧ ¬(o = 0 ∨ o = 1/2 ∨ o = 1)) ∧
    (a ≠ b → (o = 0 ∨ o = 1/2 ∨ o = 1) → a ∈ keysOf s.ratings →
      b ∈ keysOf s.ratings → ∃ s', recordOutcome s a b o = .ok s') := by
  by_cases hab : a = b
  · have hpair : recordOutcome s a b o = .error .invalidPair := by
      unfold recordOutcome
      rw [if_pos hab]
    refine ⟨⟨fun _ => hab, fun _ => hpair⟩,
      ⟨fun h => ?_, fun h => absurd hab h.1⟩, fun h => absurd hab h⟩
    rw [hpair] at h
    simp at h
  · by_cases ho : o = 0 ∨ o = 1/2 ∨ o = 1
    · have hok : ∃ s', recordOutcome s a b o = .ok s' := by
        unfold recordOutcome
        rw [if_neg hab, if_neg (not_not_intro ho)]
        exact ⟨_, rfl⟩
      obtain ⟨s', hs'⟩ := hok
      refine ⟨⟨fun h => ?_, fun h => absurd h hab⟩,
        ⟨fun h => ?_, fun h => absurd ho h.2⟩, fun _ _ _ _ => ⟨s', hs'⟩⟩
      · rw [hs'] at h
        simp at h
      · rw [hs'] at h
        simp at h
    · have herr : recordOutcome s a b o = .error .invalidOutcome := by
        unfold recordOutcome
        rw [if_neg hab, if_pos ho]
      refine ⟨⟨fun h => ?_, fun h => absurd h hab⟩,
        ⟨fun _ => ⟨hab, ho⟩, fun _ => herr⟩, fun _ hvo => absurd hvo ho⟩
      rw [herr] at h
      simp at h

/-- Witness for C6 at a fresh two-item state with a valid winning outcome. -/
theorem claim_c6_error_conditions_witness :
    ((1 : ℕ) ≠ 2 ∧ ((1 : ℚ) = 0 ∨ (1 : ℚ) = 1/2 ∨ (1 : ℚ) = 1) ∧
      1 ∈ keysOf (createEloState [1, 2] 32 1500).ratings ∧
      2 ∈ keysOf (createEloState [1, 2] 32 1500).ratings) ∧
    ∃ s', recordOutcome (createEloState [1, 2] 32 1500) 1 2 1 =
      Except.ok s' := by
  have hmem1 : 1 ∈ keysOf (createEloState [1, 2] 32 1500).ratings :=
    (createEloState_mem_keys [1, 2] 32 1500 1).mpr (by norm_num)
  have hmem2 : 2 ∈ keysOf (createEloState [1, 2] 32 1500).ratings :=
    (createEloState_mem_keys [1, 2] 32 1500 2).mpr (by norm_num)
  exact ⟨⟨by norm_num, by norm_num, hmem1, hmem2⟩,
    (claim_c6_error_conditions (createEloState [1, 2] 32 1500) 1 2 1).2.2
      (by norm_num) (by norm_num) hmem1 hmem2⟩

/-- C5: `recordOutcome` is a pure function of its arguments: repeated calls
with the same arguments agree, and the successor state touches only the two
updated entries, leaving every other rating entry and the untouched fields
exactly as in the input state. -/
theorem claim_c5_pure_update (s : EloState) (a b : ℕ) (o : ℚ) (s' : EloState)
    (h : recordOutcome s a b o = Except.ok s') :
    recordOutcome s a b o = recordOutcome s a b o ∧
    (∀ j, j ≠ a → j ≠ b → mapGet s'.ratings j = mapGet s.ratings j) ∧
    s'.skips = s.skips ∧ s'.kFactor = s.kFactor ∧
    s'.initialRating = s.initialRating := by
  unfold recordOutcome at h
  by_cases hab : a = b
  · rw [if_pos hab] at h
    simp at h
  · rw [if_neg hab] at h
    by_cases ho : o = 0 ∨ o = 1/2 ∨ o = 1
    · rw [if_neg (not_not_intro ho)] at h
      simp only [Except.ok.injEq] at h
      subst h
      refine ⟨rfl, ?_, rfl, rfl, rfl⟩
      intro j hja hjb
      exact (mapGet_mapSet_ne hjb).trans (mapGet_mapSet_ne hja)
    · rw [if_pos ho] at h
      simp at h

/-- Witness for C5: the frame property at a concrete two-item session. -/
theorem claim_c5_pure_update_witness :
    ∃ s', recordOutcome (createEloState [1, 2] 32 1500) 1 2 1 =
      Except.ok s' ∧
    ∀ j, j ≠ 1 → j ≠ 2 →
      mapGet s'.ratings j =
        mapGet (createEloState [1, 2] 32 1500).ratings j := by
  have hra : mapGet (createEloState [1, 2] 32 1500).ratings 1 =
      some (freshRating 1500) := createEloState_mapGet (by norm_num)
  have hrb : mapGet (createEloState [1, 2] 32 1500).ratings 2 =
      some (freshRating 1500) := createEloState_mapGet (by norm_num)
  have h := recordOutcome_win_spec _ 1 2 (by norm_num) _ _ hra hrb
  exact ⟨_, h, (claim_c5_pure_update _ 1 2 1 _ h).2.1⟩

/-- C10: the Elo update conserves rating mass: a valid recorded outcome
gives the two updated items a value sum equal to their previous value sum
(the two deltas cancel exactly over the reals), so the total of all rating
values over a whole session of valid calls from a fresh state stays
`itemCount * initialRating`. -/
theorem claim_c10_rating_mass (s : EloState) (a b : ℕ) (o : ℚ)
    (ids : List ℕ) (k r0 : ℝ) (calls : List OutcomeCall)
    (hnd : (keysOf s.ratings).Nodup)
    (hv : ValidCall (keysOf s.ratings) { aId := a, bId := b, outcomeForA := o })
    (hvc : ∀ c ∈ calls, ValidCall ids c) :
    (∃ s', recordOutcome s a b o = Except.ok s' ∧
      ((mapGet s'.ratings a).getD defaultRating).value +
          ((mapGet s'.ratings b).getD defaultRating).value =
        ((mapGet s.ratings a).getD defaultRating).value +
          ((mapGet s.ratings b).getD defaultRating).value ∧
      valueSum s'.ratings = valueSum s.ratings) ∧
    valueSum (applyCalls (createEloState ids k r0) calls).ratings =
      ((createEloState ids k r0).ratings.length : ℝ) * r0 := by
  constructor
  · obtain ⟨hab, ho, hamem, hbmem⟩ := hv
    obtain ⟨ra0, hra⟩ := mem_keysOf_iff_mapGet.mp hamem
    obtain ⟨rb0, hrb⟩ := mem_keysOf_iff_mapGet.mp hbmem
    obtain ⟨ra1, rb1, heq, hg1, hg2, hval⟩ :=
      recordOutcome_ok_spec s a b o hab ho ra0 rb0 hra hrb
    obtain ⟨s', heq', hc1, hc2, hvsum, hc4, hc5, hc6, hc7, hc8, hc9⟩ :=
      recordOutcome_step s { aId := a, bId := b, outcomeForA := o } hnd
        ⟨hab, ho, hamem, hbmem⟩
    rw [heq] at heq'
    have hs' := (Except.ok.inj heq').symm
    refine ⟨s', by rw [hs', heq], ?_, hvsum⟩
    rw [hs']
    have hga : mapGet (mapSet (mapSet s.ratings a ra1) b rb1) a = some ra1 :=
      (mapGet_mapSet_ne hab).trans mapGet_mapSet_self
    have hgb : mapGet (mapSet (mapSet s.ratings a ra1) b rb1) b = some rb1 :=
      mapGet_mapSet_self
    show ((mapGet (mapSet (mapSet s.ratings a ra1) b rb1) a).getD
        defaultRating).value +
      ((mapGet (mapSet (mapSet s.ratings a ra1) b rb1) b).getD
        defaultRating).value = _
    rw [hga, hgb, hra, hrb]
    simpa using hval
  · have hnd0 := createEloState_nodup ids k r0
    have hv' : ∀ c ∈ calls,
        ValidCall (keysOf (createEloState ids k r0).ratings) c := by
      intro c hc
      obtain ⟨h1, h2, h3, h4⟩ := hvc c hc
      exact ⟨h1, h2, (createEloState_mem_keys ids k r0 _).mpr h3,
        (createEloState_mem_keys ids k r0 _).mpr h4⟩
    obtain ⟨j1, j2, j3, j4, j5, j6⟩ := applyCalls_inv calls _ hnd0 hv'
    rw [j3, createEloState_valueSum]

/-- Witness for C10 at a concrete two-item session with one recorded win. -/
theorem claim_c10_rating_mass_witness :
    ((keysOf (createEloState [1, 2] 32 1500).ratings).Nodup ∧
      ValidCall (keysOf (createEloState [1, 2] 32 1500).ratings)
        { aId := 1, bId := 2, outcomeForA := 1 }) ∧
    valueSum (applyCalls (createEloState [1, 2] 32 1500)
        [{ aId := 1, bId := 2, outcomeForA := 1 }]).ratings =
      ((createEloState [1, 2] 32 1500).ratings.length : ℝ) * 1500 := by
  have hnd := createEloState_nodup [1, 2] 32 1500
  have hv : ValidCall (keysOf (createEloState [1, 2] 32 1500).ratings)
      { aId := 1, bId := 2, outcomeForA := 1 } := by
    refine ⟨by norm_num, by norm_num, ?_, ?_⟩
    · exact (createEloState_mem_keys [1, 2] 32 1500 1).mpr (by norm_num)
    · exact (createEloState_mem_keys [1, 2] 32 1500 2).mpr (by norm_num)
  exact ⟨⟨hnd, hv⟩,
    (claim_c10_rating_mass (createEloState [1, 2] 32 1500) 1 2 1 [1, 2] 32 1500
      [{ aId := 1, bId := 2, outcomeForA := 1 }] hnd hv
      (by norm_num [ValidCall])).2⟩

/-! ### Claim theorems: distribution fitter, normality, blend weight -/

theorem foldl_add_eq_sum (l : List ℝ) :
    ∀ a : ℝ, l.foldl (fun s v => s + v) a = a + l.sum := by
  induction l with
  | nil => intro a; simp
  | cons x t ih =>
      intro a
      simp only [List.foldl_cons, List.sum_cons]
      rw [ih]
      ring

theorem foldl_add_map_eq_sum (f : ℝ → ℝ) (l : List ℝ) :
    ∀ a : ℝ, l.foldl (fun s v => s + f v) a = a + (l.map f).sum := by
  induction l with
  | nil => intro a; simp
  | cons x t ih =>
      intro a
      simp only [List.foldl_cons, List.map_cons, List.sum_cons]
      rw [ih]
      ring

/-- C7: `fitNormal` returns `(0, 0)` on the empty list, `(x, 0)` on a
singleton, and otherwise the arithmetic mean together with the population
standard deviation (dividing by `n`); on `[1, 2, 3, 4, 5]` this is
`(3, sqrt 2)`. -/
theorem claim_c7_fit_normal (x : ℝ) (l : List ℝ) (hl : 2 ≤ l.length) :
    fitNormal [] = { mu := 0, sigma := 0 } ∧
    fitNormal [x] = { mu := x, sigma := 0 } ∧
    (fitNormal l).mu = listMean l ∧
    (fitNormal l).sigma = Real.sqrt (popVariance l) ∧
    fitNormal [1, 2, 3, 4, 5] = { mu := 3, sigma := Real.sqrt 2 } := by
  have hmu : (l.foldl (fun s v => s + v) 0) / (l.length : ℝ) = listMean l := by
    rw [foldl_add_eq_sum, zero_add, listMean]
  refine ⟨?_, ?_, ?_, ?_, ?_⟩
  · simp [fitNormal]
  · simp [fitNormal]
  · unfold fitNormal
    rw [if_neg (by omega), if_neg (by omega)]
    exact hmu
  · unfold fitNormal
    rw [if_neg (by omega), if_neg (by omega)]
    show Real.sqrt _ = Real.sqrt (popVariance l)
    rw [hmu, foldl_add_map_eq_sum, zero_add, popVariance]
  · unfold fitNormal
    rw [if_neg (by norm_num), if_neg (by norm_num)]
    have h1 : (([1, 2, 3, 4, 5] : List ℝ).foldl (fun s v => s + v) 0) /
        (([1, 2, 3, 4, 5] : List ℝ).length : ℝ) = 3 := by
      norm_num [List.foldl]
    rw [h1]
    have h2 : (([1, 2, 3, 4, 5] : List ℝ).foldl
        (fun s v => s + (v - 3) ^ 2) 0) /
        (([1, 2, 3, 4, 5] : List ℝ).length : ℝ) = 2 := by
      norm_num [List.foldl]
    rw [h2]

/-- Witness for C7 at the two-element list `[0, 1]`. -/
theorem claim_c7_fit_normal_witness :
    2 ≤ ([0, 1] : List ℝ).length ∧
    (fitNormal ([0, 1] : List ℝ)).mu = listMean [0, 1] :=
  ⟨by norm_num, (claim_c7_fit_normal 0 [0, 1] (by norm_num)).2.2.1⟩

/-- C8: with fewer than ten positive external scores, the normality
estimator returns the neutral normality 0.5 whatever the score values. -/
theorem claim_c8_neutral_normality (entries : List AnimeEntry)
    (h : (malScores entries).length < 10) :
    (malScoreSummary entries).normality = 0.5 := by
  unfold malScoreSummary
  rw [if_pos h]

/-- Witness for C8: three identical scores of 7 give normality 0.5. -/
theorem claim_c8_neutral_normality_witness :
    (malScores
      [{ animeId := 1, title := "a", status := none, myScore := some 7 },
       { animeId := 2, title := "b", status := none, myScore := some 7 },
       { animeId := 3, title := "c", status := none, myScore := some 7 }]).length
      < 10 ∧
    (malScoreSummary
      [{ animeId := 1, title := "a", status := none, myScore := some 7 },
       { animeId := 2, title := "b", status := none, myScore := some 7 },
       { animeId := 3, title := "c", status := none, myScore := some 7 }]).normality
      = 0.5 := by
  have h : (malScores
      [{ animeId := 1, title := "a", status := none, myScore := some 7 },
       { animeId := 2, title := "b", status := none, myScore := some 7 },
       { animeId := 3, title := "c", status := none, myScore := some 7 }]).length
      < 10 := by
    norm_num [malScores, List.filterMap_cons]
  exact ⟨h, claim_c8_neutral_normality _ h⟩

/-- C9: the blend weight vanishes at completion ratio 0 and reaches 1 at
ratio 1 for every normality in [0, 1], and at intermediate ratios a
normality of 1 gives a strictly larger weight than a normality of 0. -/
theorem claim_c9_elo_weight (n r : ℝ) (hn0 : 0 ≤ n) (hn1 : n ≤ 1)
    (hr0 : 0 < r) (hr1 : r < 1) :
    computeEloWeight 0 n = 0 ∧ computeEloWeight 1 n = 1 ∧
    computeEloWeight r 1 > computeEloWeight r 0 := by
  unfold computeEloWeight
  refine ⟨?_, ?_, ?_⟩
  · rw [show max 0 (min 1 (0 : ℝ)) = 0 by norm_num]
    rw [min_eq_right hn1, max_eq_right hn0]
    exact Real.zero_rpow (ne_of_gt (by linarith))
  · rw [show max 0 (min 1 (1 : ℝ)) = 1 by norm_num]
    exact Real.one_rpow _
  · rw [min_eq_right hr1.le, max_eq_right hr0.le,
      show max 0 (min 1 (1 : ℝ)) = 1 by norm_num,
      show max 0 (min 1 (0 : ℝ)) = 0 by norm_num]
    show r ^ (1 + (1 - (1 : ℝ))) > r ^ (1 + (1 - (0 : ℝ)))
    rw [show (1 + (1 - (1 : ℝ))) = 1 by ring,
      show (1 + (1 - (0 : ℝ))) = 2 by ring]
    have h := Real.rpow_lt_rpow_of_exponent_gt hr0 hr1
      (show (1 : ℝ) < 2 by norm_num)
    rw [Real.rpow_one]
    rw [Real.rpow_one] at h
    exact h

/-- Witness for C9 at normality 1/2 and ratio 1/2. -/
theorem claim_c9_elo_weight_witness :
    ((0 : ℝ) ≤ 1/2 ∧ (1/2 : ℝ) ≤ 1 ∧ (0 : ℝ) < 1/2 ∧ (1/2 : ℝ) < 1) ∧
    (computeEloWeight 0 (1/2) = 0 ∧ computeEloWeight 1 (1/2) = 1 ∧
      computeEloWeight (1/2) 1 > computeEloWeight (1/2) 0) :=
  ⟨⟨by norm_num, by norm_num, by norm_num, by norm_num⟩,
    claim_c9_elo_weight (1/2) (1/2) (by norm_num) (by norm_num) (by norm_num)
      (by norm_num)⟩

/-! ### Claim theorems: normal CDF symmetry -/

theorem erf_zero_val : erf 0 = 1 / 1000000000 := by
  unfold erf
  rw [if_neg (lt_irrefl (0 : ℝ))]
  rw [abs_zero]
  norm_num [Real.exp_zero]

theorem normalCdf_zero_val : normalCdf 0 = 1/2 + 1/2000000000 := by
  unfold normalCdf
  rw [zero_div, erf_zero_val]
  norm_num

theorem erf_neg_of_ne {x : ℝ} (hx : x ≠ 0) : erf (-x) = -erf x := by
  rcases lt_or_gt_of_ne hx with h | h
  · unfold erf
    rw [if_pos h, if_neg (show ¬(-x < 0) by linarith), abs_neg]
    ring
  · unfold erf
    rw [if_neg (show ¬(x < 0) by linarith), if_pos (show -x < 0 by linarith),
      abs_neg]
    ring

/-- C3 counterexample: under exact arithmetic the implemented polynomial
coefficients sum to 0.999999999, not 1, so `normalCdf 0` misses 0.5 by
exactly 5e-10 and the symmetry identity fails at z = 0. -/
theorem claim_c3_counterexample :
    normalCdf 0 ≠ 1/2 ∧ normalCdf 0 + normalCdf (-0) ≠ 1 := by
  rw [neg_zero, normalCdf_zero_val]
  norm_num

/-- C3 amended: the symmetry `normalCdf z + normalCdf (-z) = 1` holds
exactly for every nonzero `z`, while at zero the implemented approximation
returns exactly `0.5 + 5e-10` rather than 0.5. -/
theorem claim_c3_cdf_symmetry :
    (∀ z : ℝ, z ≠ 0 → normalCdf z + normalCdf (-z) = 1) ∧
    normalCdf 0 = 1/2 + 1/2000000000 := by
  refine ⟨?_, normalCdf_zero_val⟩
  intro z hz
  unfold normalCdf
  rw [neg_div]
  rw [erf_neg_of_ne (div_ne_zero hz
    (ne_of_gt (Real.sqrt_pos.mpr (by norm_num))))]
  ring

/-- Witness for the amended C3 at z = 1. -/
theorem claim_c3_cdf_symmetry_witness :
    (1 : ℝ) ≠ 0 ∧ normalCdf 1 + normalCdf (-1) = 1 :=
  ⟨by norm_num, claim_c3_cdf_symmetry.1 1 (by norm_num)⟩

/-! ### Claim C2: pair sampler repeat avoidance -/

/-- Options used in the C2 scenarios: a random source whose draws are all
zero, repeat avoidance on, and a single attempt before the fallback. -/
noncomputable def c2Opts : SelectPairOptions :=
  { rng := fun _ => 0, avoidRepeats := true, maxAttempts := 1
  , priorityById := none, priorityBoost := 0, scoreById := none
  , sameScoreBoost := 0 }

/-- Three fresh items at the initial rating 1500. -/
noncomputable def c2Ratings : List (ℕ × Rating) :=
  [(1, freshRating 1500), (2, freshRating 1500), (3, freshRating 1500)]

/-- Session state after the pair (1, 2) has been played once (its key is in
the history, the pair space over three items is not exhausted). -/
noncomputable def c2State : EloState :=
  { ratings := c2Ratings, comparisons := 1, skips := 0
  , pairHistory := [(1, 2)], kFactor := 32, initialRating := 1500 }

/-- The same session with an empty pair history. -/
noncomputable def c2FreshState : EloState :=
  { ratings := c2Ratings, comparisons := 0, skips := 0
  , pairHistory := [], kFactor := 32, initialRating := 1500 }

theorem c2_ratingFor (elo : EloState) (h : elo.ratings = c2Ratings) (i : ℕ)
    (hi : i = 1 ∨ i = 2 ∨ i = 3) : ratingFor elo i = freshRating 1500 := by
  rw [ratingFor, h]
  rcases hi with rfl | rfl | rfl <;> rfl

theorem c2_pairWeight (elo : EloState) (h : elo.ratings = c2Ratings) (i : ℕ)
    (hi : i = 1 ∨ i = 2 ∨ i = 3) : pairWeight elo c2Opts i = 1 := by
  show 1 / (1 + ((ratingFor elo i).games : ℝ)) = 1
  rw [c2_ratingFor elo h i hi]
  norm_num [freshRating]

theorem c2_candWeight (elo : EloState) (h : elo.ratings = c2Ratings) (i : ℕ)
    (hi : i = 1 ∨ i = 2 ∨ i = 3) : candWeight elo c2Opts 1 i = 1 := by
  show (1 / (1 + |(ratingFor elo i).value - (ratingFor elo 1).value| / 100)) *
    pairWeight elo c2Opts i = 1
  rw [c2_ratingFor elo h i hi, c2_ratingFor elo h 1 (by norm_num),
    c2_pairWeight elo h i hi]
  norm_num [freshRating]

theorem c2_wc3 (x y z : ℕ) : weightedChoice [x, y, z] [1, 1, 1] 0 = x := by
  simp only [weightedChoice]
  rw [if_neg (show ¬ (([1, 1, 1] : List ℝ).sum ≤ 0) by norm_num)]
  rw [show ([x, y, z].zip ([1, 1, 1] : List ℝ)) = [(x, 1), (y, 1), (z, 1)]
    from rfl]
  rw [show weightedChoiceGo (0 * ([1, 1, 1] : List ℝ).sum) 0
      [(x, 1), (y, 1), (z, 1)] = some x by
    simp only [weightedChoiceGo]
    rw [if_pos (show (0 : ℝ) * ([1, 1, 1] : List ℝ).sum ≤ 0 + 1 by norm_num)]]

theorem c2_wc2 (x y : ℕ) : weightedChoice [x, y] [1, 1] 0 = x := by
  simp only [weightedChoice]
  rw [if_neg (show ¬ (([1, 1] : List ℝ).sum ≤ 0) by norm_num)]
  rw [show ([x, y].zip ([1, 1] : List ℝ)) = [(x, 1), (y, 1)] from rfl]
  rw [show weightedChoiceGo (0 * ([1, 1] : List ℝ).sum) 0 [(x, 1), (y, 1)] =
      some x by
    simp only [weightedChoiceGo]
    rw [if_pos (show (0 : ℝ) * ([1, 1] : List ℝ).sum ≤ 0 + 1 by norm_num)]]

theorem c2_candidates (elo : EloState) (h : elo.ratings = c2Ratings) :
    selectPairCandidates elo [1, 2, 3] 1 = [2, 3] := by
  simp only [selectPairCandidates]
  rw [show (([1, 2, 3] : List ℕ).filter (fun i => i ≠ 1)) = [2, 3] from rfl]
  simp only [stableSortBy, insertLe]
  have hc : |(ratingFor elo 2).value - (ratingFor elo 1).value| ≤
      |(ratingFor elo 3).value - (ratingFor elo 1).value| := by
    rw [c2_ratingFor elo h 2 (by norm_num), c2_ratingFor elo h 3 (by norm_num),
      c2_ratingFor elo h 1 (by norm_num)]
  rw [if_pos hc]
  rfl

theorem c2_candWeights (elo : EloState) (h : elo.ratings = c2Ratings) :
    ([2, 3] : List ℕ).map (candWeight elo c2Opts 1) = [1, 1] := by
  rw [List.map_cons, List.map_cons, List.map_nil,
    c2_candWeight elo h 2 (by norm_num), c2_candWeight elo h 3 (by norm_num)]

theorem c2_loop_fresh (fuel ix : ℕ) :
    selectPairLoop c2FreshState [1, 2, 3] c2Opts [1, 1, 1] (fuel + 1) ix =
      some (1, 2) := by
  simp only [selectPairLoop]
  rw [show c2Opts.rng ix = 0 from rfl, show c2Opts.rng (ix + 1) = 0 from rfl]
  rw [c2_wc3 1 2 3, c2_candidates c2FreshState rfl,
    c2_candWeights c2FreshState rfl, c2_wc2 2 3]
  rw [if_neg (show ¬(c2Opts.avoidRepeats = true ∧
      pairKey 1 2 ∈ c2FreshState.pairHistory) from
    fun hc => List.not_mem_nil _ hc.2)]

theorem c2_loop_repeat (fuel ix : ℕ) :
    selectPairLoop c2State [1, 2, 3] c2Opts [1, 1, 1] (fuel + 1) ix =
      selectPairLoop c2State [1, 2, 3] c2Opts [1, 1, 1] fuel (ix + 2) := by
  simp only [selectPairLoop]
  rw [show c2Opts.rng ix = 0 from rfl, show c2Opts.rng (ix + 1) = 0 from rfl]
  rw [c2_wc3 1 2 3, c2_candidates c2State rfl,
    c2_candWeights c2State rfl, c2_wc2 2 3]
  rw [if_pos (show c2Opts.avoidRepeats = true ∧
      pairKey 1 2 ∈ c2State.pairHistory from
    ⟨rfl, by decide⟩)]

theorem c2_selectPair_repeat :
    selectPair c2State [1, 2, 3] c2Opts = Except.ok (1, 2) := by
  simp only [selectPair]
  rw [if_neg (show ¬ (([1, 2, 3] : List ℕ).length < 2) by norm_num)]
  rw [show ([1, 2, 3] : List ℕ).map (pairWeight c2State c2Opts) = [1, 1, 1] by
    rw [List.map_cons, List.map_cons, List.map_cons, List.map_nil,
      c2_pairWeight c2State rfl 1 (by norm_num),
      c2_pairWeight c2State rfl 2 (by norm_num),
      c2_pairWeight c2State rfl 3 (by norm_num)]]
  rw [show c2Opts.maxAttempts = 0 + 1 from rfl, c2_loop_repeat 0 0]
  rw [show selectPairLoop c2State [1, 2, 3] c2Opts [1, 1, 1] 0 (0 + 2) = none
    from rfl]
  rw [show c2Opts.rng (2 * (0 + 1)) = 0 from rfl,
    show c2Opts.rng (2 * (0 + 1) + 1) = 0 from rfl]
  norm_num

theorem selectPairLoop_no_repeat (elo : EloState) (animeIds : List ℕ)
    (opts : SelectPairOptions) (allWeights : List ℝ)
    (hav : opts.avoidRepeats = true) :
    ∀ fuel ix a b : ℕ,
      selectPairLoop elo animeIds opts allWeights fuel ix = some (a, b) →
      pairKey a b ∉ elo.pairHistory := by
  intro fuel
  induction fuel with
  | zero =>
      intro ix a b hsome
      rw [show selectPairLoop elo animeIds opts allWeights 0 ix = none
        from rfl] at hsome
      exact absurd hsome (by simp)
  | succ n ih =>
      intro ix a b hsome
      simp only [selectPairLoop] at hsome
      split_ifs at hsome with hc
      · exact ih (ix + 2) a b hsome
      · simp only [Option.some.injEq, Prod.mk.injEq] at hsome
        obtain ⟨ha, hb⟩ := hsome
        subst ha
        subst hb
        intro hmem
        exact hc ⟨hav, hmem⟩

/-- C2 counterexample: with repeat avoidance on, a non-exhausted pair space
(the unordered pair of the supplied distinct ids 1 and 3 is not in the
history), and a random source that keeps drawing the played pair, the
post-maxAttempts fallback of `selectPair` returns the pair (1, 2) whose
canonical key is already in `pairHistory`. -/
theorem claim_c2_counterexample :
    c2Opts.avoidRepeats = true ∧
    ((1 : ℕ) ≠ 3 ∧ (1 : ℕ) ∈ ([1, 2, 3] : List ℕ) ∧
      (3 : ℕ) ∈ ([1, 2, 3] : List ℕ) ∧
      pairKey 1 3 ∉ c2State.pairHistory) ∧
    selectPair c2State [1, 2, 3] c2Opts = Except.ok (1, 2) ∧
    pairKey 1 2 ∈ c2State.pairHistory := by
  refine ⟨rfl, ⟨by norm_num, by norm_num, by norm_num, by decide⟩,
    c2_selectPair_repeat, by decide⟩

/-- C2 amended: whenever the bounded retry loop itself produces the pair
(i.e. `selectPair` succeeds within `maxAttempts`) and `avoidRepeats` is on,
the returned pair's canonical key is not in `pairHistory`; only the
post-maxAttempts uniform fallback can return an already-played pair. -/
theorem claim_c2_no_repeat_within_attempts (elo : EloState)
    (animeIds : List ℕ) (opts : SelectPairOptions) (a b : ℕ)
    (hav : opts.avoidRepeats = true)
    (hlen : ¬ animeIds.length < 2)
    (hloop : selectPairLoop elo animeIds opts
      (animeIds.map (pairWeight elo opts)) opts.maxAttempts 0 =
      some (a, b)) :
    selectPair elo animeIds opts = Except.ok (a, b) ∧
    pairKey a b ∉ elo.pairHistory := by
  constructor
  · simp only [selectPair]
    rw [if_neg hlen, hloop]
  · exact selectPairLoop_no_repeat elo animeIds opts _ hav
      opts.maxAttempts 0 a b hloop

/-- Witness for the amended C2: from an empty history the single attempt
returns (1, 2), which is indeed unplayed. -/
theorem claim_c2_no_repeat_witness :
    (c2Opts.avoidRepeats = true ∧ ¬ (([1, 2, 3] : List ℕ).length < 2) ∧
      selectPairLoop c2FreshState [1, 2, 3] c2Opts
        (([1, 2, 3] : List ℕ).map (pairWeight c2FreshState c2Opts))
        c2Opts.maxAttempts 0 = some (1, 2)) ∧
    selectPair c2FreshState [1, 2, 3] c2Opts = Except.ok (1, 2) ∧
    pairKey 1 2 ∉ c2FreshState.pairHistory := by
  have hw : ([1, 2, 3] : List ℕ).map (pairWeight c2FreshState c2Opts) =
      [1, 1, 1] := by
    rw [List.map_cons, List.map_cons, List.map_cons, List.map_nil,
      c2_pairWeight c2FreshState rfl 1 (by norm_num),
      c2_pairWeight c2FreshState rfl 2 (by norm_num),
      c2_pairWeight c2FreshState rfl 3 (by norm_num)]
  have hloop : selectPairLoop c2FreshState [1, 2, 3] c2Opts
      (([1, 2, 3] : List ℕ).map (pairWeight c2FreshState c2Opts))
      c2Opts.maxAttempts 0 = some (1, 2) := by
    rw [hw]
    exact c2_loop_fresh 0 0
  exact ⟨⟨rfl, by norm_num, hloop⟩,
    claim_c2_no_repeat_within_attempts c2FreshState [1, 2, 3] c2Opts 1 2 rfl
      (by norm_num) hloop⟩
end AnimeRanker
